import Mathlib

/-
Verification development for the trajectory-constraints compiler
(unified_planning/engines/compilers/trajectory_constraints_remover.py).

The compiler takes a grounded action-based planning problem carrying
trajectory constraints (always, sometime, at-most-once, sometime-before,
sometime-after) and removes them, encoding their semantics into fresh
boolean monitoring fluents, extra conditional effects, extra action
preconditions and an augmented goal.

The development shallowly embeds the data model (formulas over grounded
boolean fluents, effects, instantaneous actions, problems), the external
expression substrate used by the compiler (construction, simplification
and substitution of formulas, modelled from the specification since the
expression engine is an external collaborator), and the compilation
pipeline itself, translated function by function from the source:
gamma-regression, the per-constraint rewriters, monitoring-atom
allocation, and the assembling compile entry point.  Plan-validity and
trajectory-constraint satisfaction semantics are modelled from the
specification in order to state the plan-preservation property.
-/

namespace TCR

/-- Formula mirrors the external FNode expression type restricted to the
shapes this compiler manipulates: boolean constants, grounded fluent
atoms (0-ary applications, identified by the fluent name), negation,
n-ary conjunction and disjunction, and the five trajectory-constraint
node kinds. -/
inductive Formula where
  | tru : Formula
  | fls : Formula
  | atom : String → Formula
  | not : Formula → Formula
  | and : List Formula → Formula
  | or : List Formula → Formula
  | always : Formula → Formula
  | sometime : Formula → Formula
  | atMostOnce : Formula → Formula
  | sometimeBefore : Formula → Formula → Formula
  | sometimeAfter : Formula → Formula → Formula

mutual
/-- Boolean structural equality on formulas (the external FNode type is
structurally hashed, equality is syntactic identity). -/
def beqF : Formula → Formula → Bool
  | .tru, b => match b with | .tru => true | _ => false
  | .fls, b => match b with | .fls => true | _ => false
  | .atom s, b => match b with | .atom t => decide (s = t) | _ => false
  | .not φ, b => match b with | .not ψ => beqF φ ψ | _ => false
  | .and l, b => match b with | .and m => beqL l m | _ => false
  | .or l, b => match b with | .or m => beqL l m | _ => false
  | .always φ, b => match b with | .always ψ => beqF φ ψ | _ => false
  | .sometime φ, b => match b with | .sometime ψ => beqF φ ψ | _ => false
  | .atMostOnce φ, b => match b with | .atMostOnce ψ => beqF φ ψ | _ => false
  | .sometimeBefore φ ψ, b =>
      match b with | .sometimeBefore φ2 ψ2 => beqF φ φ2 && beqF ψ ψ2 | _ => false
  | .sometimeAfter φ ψ, b =>
      match b with | .sometimeAfter φ2 ψ2 => beqF φ φ2 && beqF ψ ψ2 | _ => false
def beqL : List Formula → List Formula → Bool
  | [], m => match m with | [] => true | _ => false
  | a :: r, m => match m with | b :: s => beqF a b && beqL r s | _ => false
end

mutual
def beqF_eq : (a b : Formula) → beqF a b = true → a = b
  | .tru, b => by cases b <;> simp [beqF]
  | .fls, b => by cases b <;> simp [beqF]
  | .atom s, b => by cases b <;> simp [beqF]
  | .not φ, b => by
      cases b <;> simp [beqF]
      exact fun h => beqF_eq φ _ h
  | .and l, b => by
      cases b <;> simp [beqF]
      exact fun h => beqL_eq l _ h
  | .or l, b => by
      cases b <;> simp [beqF]
      exact fun h => beqL_eq l _ h
  | .always φ, b => by
      cases b <;> simp [beqF]
      exact fun h => beqF_eq φ _ h
  | .sometime φ, b => by
      cases b <;> simp [beqF]
      exact fun h => beqF_eq φ _ h
  | .atMostOnce φ, b => by
      cases b <;> simp [beqF]
      exact fun h => beqF_eq φ _ h
  | .sometimeBefore φ ψ, b => by
      cases b <;> simp [beqF]
      exact fun h1 h2 => ⟨beqF_eq φ _ h1, beqF_eq ψ _ h2⟩
  | .sometimeAfter φ ψ, b => by
      cases b <;> simp [beqF]
      exact fun h1 h2 => ⟨beqF_eq φ _ h1, beqF_eq ψ _ h2⟩
def beqL_eq : (l m : List Formula) → beqL l m = true → l = m
  | [], m => by cases m <;> simp [beqL]
  | a :: r, m => by
      cases m with
      | nil => simp [beqL]
      | cons b s =>
        simp only [beqL, Bool.and_eq_true, List.cons.injEq]
        exact fun ⟨h1, h2⟩ => ⟨beqF_eq a b h1, beqL_eq r s h2⟩
end

mutual
def beqF_refl : (a : Formula) → beqF a a = true
  | .tru => rfl
  | .fls => rfl
  | .atom s => by simp [beqF]
  | .not φ => by simp [beqF, beqF_refl φ]
  | .and l => by simp [beqF, beqL_refl l]
  | .or l => by simp [beqF, beqL_refl l]
  | .always φ => by simp [beqF, beqF_refl φ]
  | .sometime φ => by simp [beqF, beqF_refl φ]
  | .atMostOnce φ => by simp [beqF, beqF_refl φ]
  | .sometimeBefore φ ψ => by simp [beqF, beqF_refl φ, beqF_refl ψ]
  | .sometimeAfter φ ψ => by simp [beqF, beqF_refl φ, beqF_refl ψ]
def beqL_refl : (l : List Formula) → beqL l l = true
  | [] => rfl
  | a :: r => by simp [beqL, beqF_refl a, beqL_refl r]
end

instance : DecidableEq Formula := fun a b =>
  decidable_of_iff (beqF a b = true) ⟨beqF_eq a b, fun h => h ▸ beqF_refl a⟩

/-- Subterm list of a node, mirroring the args property of FNode. -/
def Formula.args : Formula → List Formula
  | .tru => []
  | .fls => []
  | .atom _ => []
  | .not φ => [φ]
  | .and l => l
  | .or l => l
  | .always φ => [φ]
  | .sometime φ => [φ]
  | .atMostOnce φ => [φ]
  | .sometimeBefore φ ψ => [φ, ψ]
  | .sometimeAfter φ ψ => [φ, ψ]

/-- Modelled from the spec: the external expression manager constructor
for n-ary conjunction; no arguments yields true and a single argument is
returned unchanged, otherwise an n-ary conjunction node is built. -/
def emAnd : List Formula → Formula
  | [] => .tru
  | [φ] => φ
  | l => .and l

/-- Modelled from the spec: the external expression manager constructor
for n-ary disjunction; no arguments yields false and a single argument
is returned unchanged. -/
def emOr : List Formula → Formula
  | [] => .fls
  | [φ] => φ
  | l => .or l

/-- Modelled from the spec: the external expression manager constructor
for negation; it builds a plain negation node, leaving simplification to
the simplifier. -/
def emNot (φ : Formula) : Formula := .not φ

/-- Simplification of a negation whose argument is already simplified:
constants are folded and a double negation is removed. -/
def mkNotS : Formula → Formula
  | .tru => .fls
  | .fls => .tru
  | .not φ => φ
  | φ => .not φ

/-- Splice the arguments of top-level conjunction nodes into the list. -/
def flattenConj : List Formula → List Formula
  | [] => []
  | .and m :: r => m ++ flattenConj r
  | φ :: r => φ :: flattenConj r

/-- Splice the arguments of top-level disjunction nodes into the list. -/
def flattenDisj : List Formula → List Formula
  | [] => []
  | .or m :: r => m ++ flattenDisj r
  | φ :: r => φ :: flattenDisj r

/-- Remove duplicates keeping the first occurrence of each element. -/
def dedupAcc : List Formula → List Formula → List Formula
  | [], _ => []
  | φ :: r, seen => if φ ∈ seen then dedupAcc r seen else φ :: dedupAcc r (φ :: seen)

def dedupKF (l : List Formula) : List Formula := dedupAcc l []

/-- Simplification of a conjunction whose arguments are already
simplified: flatten nested conjunctions, drop true units, collapse to
false when false occurs, deduplicate, and unwrap empty or singleton
results. -/
def mkAndS (l : List Formula) : Formula :=
  let fl := (flattenConj l).filter (fun φ => decide (φ ≠ Formula.tru))
  if Formula.fls ∈ fl then .fls
  else match dedupKF fl with
    | [] => .tru
    | [φ] => φ
    | xs => .and xs

/-- Simplification of a disjunction whose arguments are already
simplified, dual to mkAndS. -/
def mkOrS (l : List Formula) : Formula :=
  let fl := (flattenDisj l).filter (fun φ => decide (φ ≠ Formula.fls))
  if Formula.tru ∈ fl then .tru
  else match dedupKF fl with
    | [] => .fls
    | [φ] => φ
    | xs => .or xs

mutual
/-- Modelled from the spec: the external expression engine simplify
walker.  It works bottom-up, performs deterministic canonicalisation of
boolean structure (constant folding, double-negation elimination,
flattening of nested conjunctions and disjunctions, unit dropping,
absorption by the dominating constant, deduplication keeping the first
occurrence) and rebuilds trajectory-constraint nodes with simplified
arguments. -/
def simplify : Formula → Formula
  | .tru => .tru
  | .fls => .fls
  | .atom s => .atom s
  | .not φ => mkNotS (simplify φ)
  | .and l => mkAndS (simplifyList l)
  | .or l => mkOrS (simplifyList l)
  | .always φ => .always (simplify φ)
  | .sometime φ => .sometime (simplify φ)
  | .atMostOnce φ => .atMostOnce (simplify φ)
  | .sometimeBefore φ ψ => .sometimeBefore (simplify φ) (simplify ψ)
  | .sometimeAfter φ ψ => .sometimeAfter (simplify φ) (simplify ψ)
def simplifyList : List Formula → List Formula
  | [] => []
  | φ :: r => simplify φ :: simplifyList r
end

/-- Lookup in an association list, first match wins.  This mirrors a
python dict in which every key is inserted at most once, and thanks to
the convention that insertions prepend, a dict with overwriting in
general. -/
def findVal {α β : Type} [DecidableEq α] : List (α × β) → α → Option β
  | [], _ => none
  | (k, v) :: r, x => if x = k then some v else findVal r x

mutual
/-- Modelled from the spec: the external substitution walker applied
with a map whose keys are grounded fluent atoms; it replaces every atom
occurring in the map by its value and leaves every other leaf
unchanged. -/
def substitute (φ : Formula) (σ : List (Formula × Formula)) : Formula :=
  match φ with
  | .tru => .tru
  | .fls => .fls
  | .atom s =>
      match findVal σ (Formula.atom s) with
      | some v => v
      | none => .atom s
  | .not ψ => .not (substitute ψ σ)
  | .and l => .and (substituteList l σ)
  | .or l => .or (substituteList l σ)
  | .always ψ => .always (substitute ψ σ)
  | .sometime ψ => .sometime (substitute ψ σ)
  | .atMostOnce ψ => .atMostOnce (substitute ψ σ)
  | .sometimeBefore ψ χ => .sometimeBefore (substitute ψ σ) (substitute χ σ)
  | .sometimeAfter ψ χ => .sometimeAfter (substitute ψ σ) (substitute χ σ)
def substituteList (l : List Formula) (σ : List (Formula × Formula)) : List Formula :=
  match l with
  | [] => []
  | φ :: r => substitute φ σ :: substituteList r σ
end

mutual
/-- Modelled from the spec: the free-variables extractor, returning the
fluent atoms occurring in a formula (as atom formulas, possibly with
repetitions; callers deduplicate). -/
def freeVars : Formula → List Formula
  | .tru => []
  | .fls => []
  | .atom s => [.atom s]
  | .not φ => freeVars φ
  | .and l => freeVarsList l
  | .or l => freeVarsList l
  | .always φ => freeVars φ
  | .sometime φ => freeVars φ
  | .atMostOnce φ => freeVars φ
  | .sometimeBefore φ ψ => freeVars φ ++ freeVars ψ
  | .sometimeAfter φ ψ => freeVars φ ++ freeVars ψ
def freeVarsList : List Formula → List Formula
  | [] => []
  | φ :: r => freeVars φ ++ freeVarsList r
end

/-- Decimal digit character of a value below ten. -/
def digitCh (d : Nat) : Char := Char.ofNat (48 + d)

/-- Decimal digits of a number, least significant first, driven by a
fuel argument that keeps the recursion structural. -/
def decDigitsAux : Nat → Nat → List Char
  | 0, _ => []
  | fuel + 1, n => if n < 10 then [digitCh n] else digitCh (n % 10) :: decDigitsAux fuel (n / 10)

def decDigits (n : Nat) : List Char := decDigitsAux (n + 1) n

/-- Decimal rendering of a natural number, as python str of an int. -/
def decimalStr (n : Nat) : String := String.mk (decDigits n).reverse

/-- Value of a digit list, least significant first; left inverse of
decDigits, used to prove the monitor names injective. -/
def decVal : List Char → Nat
  | [] => 0
  | c :: r => (c.toNat - 48) + 10 * decVal r

/-- Module-level name constants of the compiler. -/
def HOLD : String := "hold"

def SEEN_PHI : String := "seen-phi"

def SEEN_PSI : String := "seen-psi"

def SEPARATOR : String := "-"

/-- Rendering of the optional monitor tag, as python str formatting: the
absent tag prints as the word None. -/
def pyStr : Option String → String
  | some s => s
  | none => "None"

/-- Effect of a grounded instantaneous action: a condition, the written
fluent (a grounded atom), and the assigned value. -/
structure Effect where
  condition : Formula
  fluent : Formula
  value : Formula
  deriving DecidableEq

/-- Grounded instantaneous action. -/
structure Action where
  name : String
  preconditions : List Formula
  effects : List Effect
  deriving DecidableEq

/-- Grounded action-based problem.  Initial values map fluent atoms to
constant values; fluents are listed by name. -/
structure Problem where
  name : String
  fluents : List String
  actions : List Action
  initialValues : List (Formula × Formula)
  goals : List Formula
  trajectoryConstraints : List Formula
  deriving DecidableEq

/-- Kind carried by an initial-state-violation error. -/
inductive ViolKind where
  | always : ViolKind
  | sometimeBefore : ViolKind
  deriving DecidableEq

/-- Failure modes of the compilation, mirroring the exceptions the
python code can raise. -/
inductive CompErr where
  | indexError : CompErr
  | usageError : CompErr
  | keyError : CompErr
  | unhandledConstraint : CompErr
  | initialStateViolation : ViolKind → CompErr
  deriving DecidableEq

instance {ε α : Type} [DecidableEq ε] [DecidableEq α] : DecidableEq (Except ε α) := fun a b =>
  match a, b with
  | .ok x, .ok y =>
      if h : x = y then .isTrue (congrArg Except.ok h)
      else .isFalse (fun hh => h (Except.ok.inj hh))
  | .error e, .error f =>
      if h : e = f then .isTrue (congrArg Except.error h)
      else .isFalse (fun hh => h (Except.error.inj hh))
  | .ok _, .error _ => .isFalse (fun hh => Except.noConfusion hh)
  | .error _, .ok _ => .isFalse (fun hh => Except.noConfusion hh)

/-- Literal asserted by an effect: the negation of the written fluent
when the assigned value is the constant false, the fluent itself
otherwise. -/
def effLiteral (eff : Effect) : Formula :=
  if eff.value = Formula.fls then Formula.not eff.fluent else eff.fluent

/-- Loop of the gamma computation: scan the effects, short-circuit to
true on an unconditional matching effect, and collect the conditions of
conditional matching effects. -/
def gammaLoop (literal : Formula) : List Effect → List Formula → Formula
  | [], acc => if acc = [] then .fls else emOr acc
  | eff :: rest, acc =>
    if literal = effLiteral eff then
      if eff.condition = .tru then .tru
      else gammaLoop literal rest (acc ++ [eff.condition])
    else gammaLoop literal rest acc

/-- Gamma of a literal through an action: the conditions under which the
action makes the literal true.  The python code returns the bool False
for an empty disjunction, which the expression manager promotes to the
false constant at every use site. -/
def gamma (literal : Formula) (action : Action) : Formula :=
  gammaLoop literal action.effects []

/-- Gamma substitution of a literal: gamma of the literal, or the
literal held and the action did not make its negation true. -/
def gammaSubstitution (literal : Formula) (action : Action) : Formula :=
  let negatedLiteral := emNot literal
  let gamma1 := gamma literal action
  let gamma2 := emNot (gamma negatedLiteral action)
  let conjunction := emAnd [literal, gamma2]
  emOr [gamma1, conjunction]

mutual
/-- Regression of a formula through an action, by recursion on the
formula shape; any shape outside constants, fluent atoms, negation,
conjunction and disjunction raises a usage error. -/
def regression (φ : Formula) (action : Action) : Except CompErr Formula :=
  match φ with
  | .fls => .ok .fls
  | .tru => .ok .tru
  | .atom s => .ok (gammaSubstitution (.atom s) action)
  | .or l =>
      match regressionList l action with
      | .ok rl => .ok (emOr rl)
      | .error e => .error e
  | .and l =>
      match regressionList l action with
      | .ok rl => .ok (emAnd rl)
      | .error e => .error e
  | .not ψ =>
      match regression ψ action with
      | .ok r => .ok (emNot r)
      | .error e => .error e
  | _ => .error .usageError
def regressionList (l : List Formula) (action : Action) : Except CompErr (List Formula) :=
  match l with
  | [] => .ok []
  | φ :: r =>
      match regression φ action with
      | .ok rφ =>
          match regressionList r action with
          | .ok rr => .ok (rφ :: rr)
          | .error e => .error e
      | .error e => .error e
end

/-- Append a conditional effect setting or clearing a monitoring atom,
dropping the effect when its condition simplifies to false. -/
def addCondEff (E : List Effect) (cond eff : Formula) : List Effect :=
  if simplify cond = .fls then E
  else match eff with
    | .not f => E ++ [⟨cond, f, Formula.fls⟩]
    | f => E ++ [⟨cond, f, Formula.tru⟩]

/-- Rewriting for a sometime-after constraint relevant to an action:
possibly clear the monitor when the action realises phi without psi, and
possibly set it when the action realises psi. -/
def manageSaCompilation (φ ψ mAtom : Formula) (a : Action) (E : List Effect) :
    Except CompErr (List Effect) :=
  match regression φ a with
  | .error e => .error e
  | .ok rφ =>
    match regression ψ a with
    | .error e => .error e
    | .ok rψ =>
      let R1 := simplify rφ
      let R2 := simplify rψ
      let E1 :=
        if φ = R1 ∧ ψ = R2 then E
        else addCondEff E (simplify (emAnd [R1, emNot R2])) (emNot mAtom)
      .ok (if ψ = R2 then E1 else addCondEff E1 R2 mAtom)

/-- Rewriting for a sometime constraint relevant to an action: set the
monitor when the action realises phi. -/
def manageSometimeCompilation (φ mAtom : Formula) (a : Action) (E : List Effect) :
    Except CompErr (List Effect) :=
  match regression φ a with
  | .error e => .error e
  | .ok rφ =>
    let R := simplify rφ
    .ok (if R = φ then E else addCondEff E R mAtom)

/-- Rewriting for a sometime-before constraint relevant to an action:
require the monitor before realising phi, and set it when the action
realises psi. -/
def manageSbCompilation (φ ψ mAtom : Formula) (a : Action) (E : List Effect) :
    Except CompErr ((Option Formula × Bool) × List Effect) :=
  match regression φ a with
  | .error e => .error e
  | .ok rφ =>
    let Rφ := simplify rφ
    let addedPrecond : Option Formula × Bool :=
      if Rφ = φ then (none, false)
      else (some (simplify (emOr [emNot Rφ, mAtom])), true)
    match regression ψ a with
    | .error e => .error e
    | .ok rψ =>
      let Rψ := simplify rψ
      .ok (addedPrecond, if Rψ = ψ then E else addCondEff E Rψ mAtom)

/-- Rewriting for an at-most-once constraint relevant to an action: when
the action can realise phi, require that either it does not, or the
monitor is unset, or phi already held, and set the monitor when phi is
realised. -/
def manageAmoCompilation (φ mAtom : Formula) (a : Action) (E : List Effect) :
    Except CompErr ((Option Formula × Bool) × List Effect) :=
  match regression φ a with
  | .error e => .error e
  | .ok rφ =>
    let R := simplify rφ
    if R = φ then .ok ((none, false), E)
    else
      let rho := simplify (emOr [emNot R, emNot mAtom, φ])
      .ok ((some rho, true), addCondEff E R mAtom)

/-- Rewriting for an always constraint relevant to an action: the
regressed formula becomes a precondition. -/
def manageAlwaysCompilation (φ : Formula) (a : Action) :
    Except CompErr (Option Formula × Bool) :=
  match regression φ a with
  | .error e => .error e
  | .ok rφ =>
    let R := simplify rφ
    .ok (if R = φ then (none, false) else (some R, true))

/-- Grounded initial-state substitution map: the written fluents of all
action effects, each mapped to its initial value when that value is
present and is the constant true; every other fluent is absent. -/
def groundInitialState (actions : List Action) (initialValues : List (Formula × Formula)) :
    List (Formula × Formula) :=
  (actions.flatMap (fun act => act.effects.map (fun eff => eff.fluent))).filterMap
    (fun keyGr =>
      match findVal initialValues keyGr with
      | some v => if v = Formula.tru then some (keyGr, v) else none
      | none => none)

/-- Per-kind monitor tag and initial value of a constraint, evaluated
against the grounded initial-state substitution.  The branch for
sometime-after mirrors the python expression
simplify(psi-sub) or not simplify(phi-sub): formula objects are always
truthy in python, so the or-expression yields its first operand and the
initial value reduces to the substituted simplified psi alone.  The
fallback branch reads the first argument of the node and raises an
IndexError when the node has no arguments. -/
def evaluateConstraint (constr : Formula) (initValues : List (Formula × Formula)) :
    Except CompErr (Option String × Formula) :=
  match constr with
  | .sometime φ => .ok (some HOLD, simplify (substitute φ initValues))
  | .sometimeAfter _ ψ => .ok (some HOLD, simplify (substitute ψ initValues))
  | .sometimeBefore _ ψ => .ok (some SEEN_PSI, simplify (substitute ψ initValues))
  | .atMostOnce φ => .ok (some SEEN_PHI, simplify (substitute φ initValues))
  | c =>
      match c.args with
      | a :: _ => .ok (none, simplify (substitute a initValues))
      | [] => .error .indexError

/-- Monitor fluent name: tag, separator, decimal counter, as the python
f-string builds it. -/
def monitorName (t : String) (n : Nat) : String := t ++ SEPARATOR ++ decimalStr n

def isAlways : Formula → Bool
  | .always _ => true
  | _ => false

/-- Initial-state check of a sometime-before constraint: its first
argument may not hold under the grounded initial-state substitution;
every other constraint kind passes. -/
def sbViolatedCheck (I : List (Formula × Formula)) : Formula → Bool
  | .sometimeBefore φ _ => decide (simplify (substitute φ I) = Formula.tru)
  | _ => false

/-- Loop of the monitoring-atom allocation, threading the fresh-name
counter; returns the monitors that are initially true, the fresh fluent
names in allocation order, and the constraint-to-monitor association. -/
def getMonitoringAtomsGo (I : List (Formula × Formula)) :
    List Formula → Nat →
    Except CompErr (List Formula × List String × List (Formula × Formula))
  | [], _ => .ok ([], [], [])
  | constr :: rest, counter =>
    match constr with
    | .always φ =>
        if simplify (substitute φ I) = .fls then
          .error (.initialStateViolation .always)
        else getMonitoringAtomsGo I rest counter
    | c =>
      match evaluateConstraint c I with
      | .error e => .error e
      | .ok (tag, initStateValue) =>
        let name := monitorName (pyStr tag) counter
        let monitoringAtom := Formula.atom name
        if sbViolatedCheck I c then .error (.initialStateViolation .sometimeBefore)
        else
          match getMonitoringAtomsGo I rest (counter + 1) with
          | .error e => .error e
          | .ok (iRest, fRest, dRest) =>
              .ok ((if initStateValue = .tru then monitoringAtom :: iRest else iRest),
                   name :: fRest,
                   (c, monitoringAtom) :: dRest)

/-- Monitoring-atom allocation over the normalised constraint list,
starting the fresh-name counter at zero. -/
def getMonitoringAtoms (C : List Formula) (I : List (Formula × Formula)) :
    Except CompErr (List Formula × List String × List (Formula × Formula)) :=
  getMonitoringAtomsGo I C 0

/-- Normalisation of the trajectory-constraint list: conjoin, simplify,
split on a top-level conjunction, and repeat after the quantifier
removal.  The embedding is quantifier-free, so the quantifier-removal
walker is the identity here. -/
def buildConstraintList (constraints : List Formula) : List Formula :=
  let cTemp := simplify (emAnd constraints)
  let cList := match cTemp with | .and l => l | c => [c]
  let cToReturn := simplify (emAnd cList)
  match cToReturn with | .and l => l | c => [c]

/-- Append a constraint to the list held by a key of the relevancy
dictionary, creating the entry on first use. -/
def dictAppend : List (Formula × List Formula) → Formula → Formula →
    List (Formula × List Formula)
  | [], k, c => [(k, [c])]
  | (k2, l) :: rest, k, c =>
      if k2 = k then (k2, l ++ [c]) :: rest else (k2, l) :: dictAppend rest k c

/-- Relevancy dictionary: for each constraint in order, append it to the
entry of every fluent atom occurring free in it. -/
def buildRelevancyDict (C : List Formula) : List (Formula × List Formula) :=
  C.foldl (fun d c => (freeVars c).foldl (fun d2 atm => dictAppend d2 atm c) d) []

/-- Constraints relevant to an action: those registered for a fluent
written by one of its effects, first occurrence kept. -/
def getRelevantConstraints (a : Action) (relevancyDict : List (Formula × List Formula)) :
    List Formula :=
  a.effects.foldl
    (fun acc eff =>
      (match findVal relevancyDict eff.fluent with
       | some l => l
       | none => []).foldl (fun acc2 c => if c ∈ acc2 then acc2 else acc2 ++ [c]) acc)
    []

/-- Landmark constraints: the sometime and sometime-after constraints of
the list, in order. -/
def landmarkConstraints (C : List Formula) : List Formula :=
  C.filter (fun c =>
    match c with
    | .sometime _ => true
    | .sometimeAfter _ _ => true
    | _ => false)

/-- Monitor atoms of the landmark constraints, read off the allocation
dictionary; a missing entry is a KeyError. -/
def landmarkMonitors (C : List Formula) (dict : List (Formula × Formula)) :
    Except CompErr (List Formula) :=
  (landmarkConstraints C).mapM (fun c =>
    match findVal dict c with
    | some m => Except.ok m
    | none => Except.error CompErr.keyError)

/-- Append a synthesised precondition to an action, unless the rewriter
produced none or the precondition is the constant true. -/
def applyPrecond (a : Action) : Option Formula → Bool → Action
  | some p, true =>
      if p = Formula.tru then a
      else { a with preconditions := a.preconditions ++ [p] }
  | _, _ => a

/-- Body of the per-action loop for one relevant constraint: dispatch on
the constraint kind, thread the added preconditions through the action
and the synthesised conditional effects through the accumulator. -/
def processConstraint (dict : List (Formula × Formula)) (c : Formula) (a : Action)
    (E : List Effect) : Except CompErr (Action × List Effect) :=
  match c with
  | .always φ =>
      match manageAlwaysCompilation φ a with
      | .error e => .error e
      | .ok (precondition, toAdd) => .ok (applyPrecond a precondition toAdd, E)
  | .atMostOnce φ =>
      match findVal dict c with
      | none => .error .keyError
      | some m =>
        match manageAmoCompilation φ m a E with
        | .error e => .error e
        | .ok ((precondition, toAdd), E2) => .ok (applyPrecond a precondition toAdd, E2)
  | .sometimeBefore φ ψ =>
      match findVal dict c with
      | none => .error .keyError
      | some m =>
        match manageSbCompilation φ ψ m a E with
        | .error e => .error e
        | .ok ((precondition, toAdd), E2) => .ok (applyPrecond a precondition toAdd, E2)
  | .sometime φ =>
      match findVal dict c with
      | none => .error .keyError
      | some m =>
        match manageSometimeCompilation φ m a E with
        | .error e => .error e
        | .ok E2 => .ok (a, E2)
  | .sometimeAfter φ ψ =>
      match findVal dict c with
      | none => .error .keyError
      | some m =>
        match manageSaCompilation φ ψ m a E with
        | .error e => .error e
        | .ok E2 => .ok (a, E2)
  | _ => .error .unhandledConstraint

/-- Per-action compilation: fold the relevant constraints over the
action, then append the synthesised conditional effects. -/
def compileAction (dict : List (Formula × Formula)) (relevant : List Formula)
    (a : Action) : Except CompErr Action :=
  match relevant.foldlM (fun (p : Action × List Effect) c => processConstraint dict c p.1 p.2)
      (a, ([] : List Effect)) with
  | .error e => .error e
  | .ok (a2, E) => .ok { a2 with effects := a2.effects ++ E }

/-- Step of the action loop: rewrite one action and keep it unless the
constant false ended up among its preconditions. -/
def buildStep (dict : List (Formula × Formula))
    (relevancyDict : List (Formula × List Formula)) (acc : List Action) (a : Action) :
    Except CompErr (List Action) :=
  match compileAction dict (getRelevantConstraints a relevancyDict) a with
  | .error e => .error e
  | .ok a2 => .ok (if Formula.fls ∈ a2.preconditions then acc else acc ++ [a2])

/-- Fold of the action loop over all actions. -/
def buildAPrime (dict : List (Formula × Formula))
    (relevancyDict : List (Formula × List Formula)) (A : List Action) :
    Except CompErr (List Action) :=
  A.foldlM (buildStep dict relevancyDict) []

/-- Compilation entry point.  The grounding pre-pass is external and is
modelled as the identity on the already-grounded input (plus the name
prefix the adapter installs on the clone); everything else is translated
from the compile method: ground initial state, constraint normalisation,
relevancy index, monitoring-atom allocation, goal augmentation, the
per-action rewriting loop with pruning of actions whose preconditions
contain false, and the assembly of the output problem. -/
def compile (p : Problem) : Except CompErr Problem :=
  let prob := { p with name := "TrajectoryConstraintsRemover_" ++ p.name }
  let A := prob.actions
  let I := groundInitialState A prob.initialValues
  let C := buildConstraintList prob.trajectoryConstraints
  let relevancyDict := buildRelevancyDict C
  match getMonitoringAtoms C I with
  | .error e => .error e
  | .ok (iPrime, fPrime, dict) =>
    match landmarkMonitors C dict with
    | .error e => .error e
    | .ok monitors =>
      let gPrime := emAnd monitors
      match buildAPrime dict relevancyDict A with
      | .error e => .error e
      | .ok aPrime =>
        let gNew := simplify (emAnd (prob.goals ++ [gPrime]))
        .ok { prob with
              goals := [gNew],
              trajectoryConstraints := [],
              fluents := prob.fluents ++ fPrime,
              actions := aPrime,
              initialValues :=
                iPrime.foldl (fun iv m => (m, Formula.tru) :: iv) prob.initialValues }

/-- Tag a monitor allocation would use for a constraint, matching the
per-kind tags of evaluateConstraint. -/
def specTag : Formula → String
  | .sometime _ => HOLD
  | .sometimeAfter _ _ => HOLD
  | .sometimeBefore _ _ => SEEN_PSI
  | .atMostOnce _ => SEEN_PHI
  | _ => "None"

/-- Monitor-allocation map as the specification describes it: walk the
normalised constraint list in order, skip always constraints, and give
every other constraint a fresh boolean fluent named tag-counter with a
single counter over allocation order. -/
def specAlloc : List Formula → Nat → List (Formula × Formula)
  | [], _ => []
  | c :: rest, n =>
    match c with
    | .always _ => specAlloc rest n
    | c => (c, Formula.atom (monitorName (specTag c) n)) :: specAlloc rest (n + 1)

/-- Conjunct list of a formula: the arguments of a conjunction node, the
formula itself otherwise. -/
def conjuncts : Formula → List Formula
  | .and l => l
  | φ => [φ]

/-- Purely boolean state formulas: constants, fluent atoms, negation,
conjunction and disjunction.  Conjunction and disjunction nodes built by
the expression manager always carry at least two arguments, which the
predicate records. -/
inductive IsBoolForm : Formula → Prop where
  | tru : IsBoolForm .tru
  | fls : IsBoolForm .fls
  | atom (s : String) : IsBoolForm (.atom s)
  | not (φ : Formula) : IsBoolForm φ → IsBoolForm (.not φ)
  | and (l : List Formula) (h2 : 2 ≤ l.length) (h : ∀ x ∈ l, IsBoolForm x) :
      IsBoolForm (.and l)
  | or (l : List Formula) (h2 : 2 ≤ l.length) (h : ∀ x ∈ l, IsBoolForm x) :
      IsBoolForm (.or l)

/-- An action does not touch a formula when none of its effects writes a
fluent occurring free in it. -/
abbrev Untouched (a : Action) (φ : Formula) : Prop :=
  ∀ e ∈ a.effects, e.fluent ∉ freeVars φ

def isAtomF : Formula → Bool
  | .atom _ => true
  | _ => false

/-- Name of an atom formula (empty for other shapes). -/
def atomStr : Formula → String
  | .atom s => s
  | _ => ""

/-- Grounded actions write grounded fluents: every effect target is an
atom. -/
abbrev WFAction (a : Action) : Prop :=
  ∀ e ∈ a.effects, isAtomF e.fluent = true

def isConstraintKind : Formula → Bool
  | .always _ => true
  | .sometime _ => true
  | .atMostOnce _ => true
  | .sometimeBefore _ _ => true
  | .sometimeAfter _ _ => true
  | _ => false

mutual
/-- Modelled from the spec: truth of a boolean state formula in a state,
a state being the set of fluent atoms currently true.  Constraint nodes
are not state formulas and evaluate to false. -/
def holds (s : List Formula) : Formula → Bool
  | .tru => true
  | .fls => false
  | .atom x => decide (Formula.atom x ∈ s)
  | .not φ => !(holds s φ)
  | .and l => holdsAll s l
  | .or l => holdsAny s l
  | _ => false
def holdsAll (s : List Formula) : List Formula → Bool
  | [] => true
  | φ :: r => holds s φ && holdsAll s r
def holdsAny (s : List Formula) : List Formula → Bool
  | [] => false
  | φ :: r => holds s φ || holdsAny s r
end

/-- Modelled from the spec: applying the effects of an action in a
state; an effect fires when its condition holds in the pre-state, and a
fired effect adds or removes its fluent according to the assigned
constant. -/
def applyEffects (s : List Formula) (effs : List Effect) : List Formula :=
  effs.foldl
    (fun s2 e =>
      if holds s e.condition then
        if e.value = Formula.fls then s2.filter (fun x => decide (x ≠ e.fluent))
        else if e.value = Formula.tru then
          e.fluent :: s2.filter (fun x => decide (x ≠ e.fluent))
        else s2
      else s2)
    s

/-- Fluent atoms true in an initial-value map. -/
def trueAtoms (iv : List (Formula × Formula)) : List Formula :=
  (iv.map Prod.fst).filter (fun k => decide (findVal iv k = some Formula.tru))

/-- Modelled from the spec: the state sequence a plan visits. -/
def planStates (s0 : List Formula) : List Action → List (List Formula)
  | [] => [s0]
  | a :: π => s0 :: planStates (applyEffects s0 a.effects) π

/-- Modelled from the spec: every action of the plan is applicable in
the state where it fires. -/
def planApplicable (s0 : List Formula) : List Action → Bool
  | [] => true
  | a :: π => a.preconditions.all (holds s0) && planApplicable (applyEffects s0 a.effects) π

def finalState (s0 : List Formula) : List Action → List Formula
  | [] => s0
  | a :: π => finalState (applyEffects s0 a.effects) π

/-- Modelled from the spec: a ground plan is valid in a problem when it
is applicable from the initial state and reaches a state satisfying all
goals. -/
def validPlan (p : Problem) (π : List Action) : Bool :=
  planApplicable (trueAtoms p.initialValues) π &&
    p.goals.all (holds (finalState (trueAtoms p.initialValues) π))

/-- Check of sometime-after semantics on a trace: whenever phi holds in
a state, psi holds in that state or a later one. -/
def saCheck (φ ψ : Formula) : List (List Formula) → Bool
  | [] => true
  | s :: rest =>
      (!(holds s φ) || (holds s ψ || rest.any (fun t => holds t ψ))) && saCheck φ ψ rest

/-- Check of sometime-before semantics on a trace: whenever phi holds in
a state, psi held in some strictly earlier state. -/
def sbCheckGo (φ ψ : Formula) (seen : Bool) : List (List Formula) → Bool
  | [] => true
  | s :: rest => (!(holds s φ) || seen) && sbCheckGo φ ψ (seen || holds s ψ) rest

/-- Check that a boolean sequence is true on at most one contiguous
interval. -/
def amoCheckGo (started ended : Bool) : List Bool → Bool
  | [] => true
  | b :: r =>
      if b && ended then false
      else amoCheckGo (started || b) (ended || (started && !b)) r

/-- Modelled from the spec: satisfaction of one trajectory constraint by
the state sequence of a plan. -/
def satisfiesConstraint (trace : List (List Formula)) : Formula → Bool
  | .always φ => trace.all (fun s => holds s φ)
  | .sometime φ => trace.any (fun s => holds s φ)
  | .atMostOnce φ => amoCheckGo false false (trace.map (fun s => holds s φ))
  | .sometimeBefore φ ψ => sbCheckGo φ ψ false trace
  | .sometimeAfter φ ψ => saCheck φ ψ trace
  | φ => trace.all (fun s => holds s φ)

/-- Modelled from the spec: a plan satisfies all trajectory constraints
of a problem when its state sequence satisfies each of them. -/
def satisfiesAllConstraints (p : Problem) (π : List Action) : Bool :=
  p.trajectoryConstraints.all
    (satisfiesConstraint (planStates (trueAtoms p.initialValues) π))

/-- Concrete fluent atoms used by the test instances below. -/
def pAtom : Formula := .atom "p"

def qAtom : Formula := .atom "q"

/-- Action with the single unconditional effect p := true. -/
def opSetP : Action := ⟨"op", [], [⟨.tru, pAtom, .tru⟩]⟩

/-- Action with the single unconditional effect p := false. -/
def turnOffP : Action := ⟨"turn_off", [], [⟨.tru, pAtom, .fls⟩]⟩

/-- Action with the single unconditional effect p := true. -/
def turnOnP : Action := ⟨"turn_on", [], [⟨.tru, pAtom, .tru⟩]⟩

/-- Problem with both fluents false initially, one action setting p, no
goals, and the single constraint sometime-after p q. -/
def prob1 : Problem :=
  ⟨"prob1", ["p", "q"], [opSetP], [(pAtom, .fls), (qAtom, .fls)], [],
   [.sometimeAfter pAtom qAtom]⟩

/-- Output of compiling prob1, spelled out. -/
def prob1Result : Problem :=
  ⟨"TrajectoryConstraintsRemover_prob1", ["p", "q", "hold-0"],
   [⟨"op", [], [⟨.tru, pAtom, .tru⟩, ⟨.not qAtom, .atom "hold-0", .fls⟩]⟩],
   [(pAtom, .fls), (qAtom, .fls)], [.atom "hold-0"], []⟩

/-- Initial-state substitution with p true, used for the sometime-after
initial-value claim. -/
def init2 : List (Formula × Formula) := [(pAtom, .tru)]

/-- Constraint sometime-after of not p and q: its specified initial
monitor value against init2 is q or not false, hence true. -/
def constr2 : Formula := .sometimeAfter (.not pAtom) qAtom

/-- Problem whose normalised constraint list holds a violated
sometime-before ahead of a violated always. -/
def prob3 : Problem :=
  ⟨"prob3", ["p", "q"], [opSetP], [(pAtom, .tru), (qAtom, .fls)], [],
   [.sometimeBefore pAtom qAtom, .always (.not pAtom)]⟩

/-- Problem with a single violated always constraint. -/
def prob3w : Problem :=
  ⟨"prob3w", ["p", "q"], [opSetP], [(pAtom, .tru), (qAtom, .fls)], [],
   [.always (.not pAtom)]⟩

/-- Problem with an empty trajectory-constraint list. -/
def prob4 : Problem := ⟨"prob4", ["p"], [opSetP], [(pAtom, .fls)], [], []⟩

/-- Monitor atom and dictionary used by the at-most-once claims. -/
def m5 : Formula := .atom "seen-phi-0"

def amoConstr : Formula := .atMostOnce pAtom

def dict5 : List (Formula × Formula) := [(amoConstr, m5)]

/-- Problem with goal false and the single constraint sometime p. -/
def prob8 : Problem :=
  ⟨"prob8", ["p"], [opSetP], [(pAtom, .fls)], [.fls], [.sometime pAtom]⟩

/-- Output of compiling prob8, spelled out. -/
def prob8Result : Problem :=
  ⟨"TrajectoryConstraintsRemover_prob8", ["p", "hold-0"],
   [⟨"op", [], [⟨.tru, pAtom, .tru⟩, ⟨.tru, .atom "hold-0", .tru⟩]⟩],
   [(pAtom, .fls)], [.fls], []⟩

/-- Action untouched by formulas over p: it writes only the fluent r. -/
def actW : Action := ⟨"w", [], [⟨.tru, .atom "r", .tru⟩]⟩

/-- Constraint list used by the monitor-allocation witness. -/
def c9List : List Formula := [.sometime pAtom, .atMostOnce qAtom]

/-- C1: the plan-preservation round trip fails on the code.  On prob1
the empty plan is valid for the original grounded problem and satisfies
its single trajectory constraint sometime-after p q (vacuously, p being
false initially), yet it is not a valid plan of the compiled problem:
the hold-0 monitor ends up false initially, because the initial value of
a sometime-after monitor is computed by a python or-expression over
formula objects (which always yields its first operand, the substituted
psi) under the incomplete initial-state substitution, instead of the
specified psi or not phi. -/
theorem c1_round_trip_fails :
    validPlan prob1 [] = true ∧
    satisfiesAllConstraints prob1 [] = true ∧
    compile prob1 = .ok prob1Result ∧
    validPlan prob1Result [] = false := by decide

/-- C2: the monitor of sometime-after of not p and q, evaluated against
the initial substitution mapping p to true, is placed in the initial
set only when the substituted simplified psi is literally true; here the
specified value psi or not phi simplifies to true, yet the code computes
just psi (the python or-expression on formula objects returns its first
operand), so the monitor is left out of the initial-true set. -/
theorem c2_sometime_after_initial_value :
    evaluateConstraint constr2 init2 = .ok (some HOLD, qAtom) ∧
    qAtom ≠ Formula.tru ∧
    simplify (emOr [simplify (substitute qAtom init2),
      emNot (simplify (substitute (.not pAtom) init2))]) = .tru ∧
    getMonitoringAtoms [constr2] init2 =
      .ok ([], ["hold-0"], [(constr2, .atom "hold-0")]) := by decide

/-- C4: compiling a problem with an empty trajectory-constraint list
does not succeed: the normalised list is the singleton true, whose
allocation path reads the first argument of an argument-less node and
raises an IndexError, so no compiled problem is produced. -/
theorem c4_empty_constraints_crash :
    buildConstraintList prob4.trajectoryConstraints = [.tru] ∧
    compile prob4 = .error .indexError := by decide

/-- C3 counterexample: prob3 has a normalised constraint list containing
always of not p with not p false under the grounded initial-state
substitution, yet compile fails with the sometime-before violation, not
the always violation, because a violated sometime-before precedes the
always in the list. -/
theorem c3_counterexample :
    Formula.always (.not pAtom) ∈ buildConstraintList prob3.trajectoryConstraints ∧
    simplify (substitute (.not pAtom)
      (groundInitialState prob3.actions prob3.initialValues)) = .fls ∧
    compile prob3 = .error (.initialStateViolation .sometimeBefore) ∧
    compile prob3 ≠ .error (.initialStateViolation .always) := by decide

/-- C5 counterexample: for at-most-once p and the action with the single
effect p := false, the simplified regression is false, which differs
from p, yet the action gains neither the claimed precondition (it
simplifies to true and is discarded) nor the claimed conditional effect
(its condition is false and it is dropped). -/
theorem c5_counterexample :
    (regression pAtom turnOffP).map simplify = .ok .fls ∧
    Formula.fls ≠ pAtom ∧
    simplify (emOr [emNot .fls, emNot m5, pAtom]) = .tru ∧
    processConstraint dict5 amoConstr turnOffP [] = .ok (turnOffP, []) ∧
    turnOffP.preconditions = [] ∧
    turnOffP.effects = [⟨.tru, pAtom, .fls⟩] := by decide

/-- C8 counterexample: prob8 has the landmark constraint sometime p, its
monitor hold-0 is allocated, yet the output goal is the constant false
(the original goal false absorbs the conjunction), so the monitor does
not occur in the output goal conjunction. -/
theorem c8_counterexample :
    buildConstraintList prob8.trajectoryConstraints = [.sometime pAtom] ∧
    compile prob8 = .ok prob8Result ∧
    prob8Result.goals = [.fls] ∧
    Formula.atom "hold-0" ∉ conjuncts Formula.fls := by decide

theorem except_bind_ok {ε α β : Type} (v : α) (f : α → Except ε β) :
    (Except.ok v >>= f) = f v := rfl

theorem except_bind_error {ε α β : Type} (e : ε) (f : α → Except ε β) :
    ((Except.error e : Except ε α) >>= f) = .error e := rfl

theorem findVal_groundInitialState (A : List Action) (iv : List (Formula × Formula))
    (x : Formula) :
    findVal (groundInitialState A iv) x =
      if x ∈ A.flatMap (fun act => act.effects.map (fun eff => eff.fluent)) ∧
          findVal iv x = some Formula.tru
      then some Formula.tru else none := by
  rw [groundInitialState]
  generalize A.flatMap (fun act => act.effects.map (fun eff => eff.fluent)) = L
  induction L with
  | nil => simp [findVal]
  | cons k L ih =>
    by_cases hx : x = k
    · subst hx
      cases hk : findVal iv x with
      | none => simp [List.filterMap_cons, hk, ih]
      | some v =>
        by_cases hv : v = Formula.tru
        · subst hv; simp [List.filterMap_cons, hk, findVal]
        · simp [List.filterMap_cons, hk, hv, ih, Option.some_inj, hv]
    · cases hk : findVal iv k with
      | none => simp [List.filterMap_cons, hk, ih, hx]
      | some v =>
        by_cases hv : v = Formula.tru
        · subst hv; simp [List.filterMap_cons, hk, findVal, hx, ih]
        · simp [List.filterMap_cons, hk, hv, ih, hx]

/-- C10: the initial-state substitution map contains exactly the fluent
atoms written by some effect of some grounded action whose initial value
is the constant true (and maps them to true); every other atom is
absent, and an absent atom is left unchanged by the substitution used in
the initial-state checks. -/
theorem c10_initial_substitution_map (A : List Action) (iv : List (Formula × Formula))
    (x : Formula) :
    (findVal (groundInitialState A iv) x = some Formula.tru ↔
      ((∃ a ∈ A, ∃ e ∈ a.effects, e.fluent = x) ∧ findVal iv x = some Formula.tru)) ∧
    (∀ v, findVal (groundInitialState A iv) x = some v → v = Formula.tru) ∧
    (∀ s, findVal (groundInitialState A iv) (Formula.atom s) = none →
      substitute (.atom s) (groundInitialState A iv) = .atom s) := by
  refine ⟨?_, ?_, ?_⟩
  · rw [findVal_groundInitialState]
    split_ifs with h
    · simp only [List.mem_flatMap, List.mem_map] at h
      simpa using h
    · simp only [List.mem_flatMap, List.mem_map] at h
      simpa using h
  · intro v hv
    rw [findVal_groundInitialState] at hv
    split_ifs at hv with h
    exact (Option.some_inj.mp hv).symm
  · intro s h
    simp [substitute, h]

/-- C10 witness: in a problem whose only action writes p while q is
initially true, q is not in the substitution map (no action writes it)
and is left unsubstituted. -/
theorem c10_witness :
    substitute qAtom (groundInitialState [opSetP] [(pAtom, .fls), (qAtom, .tru)]) = qAtom :=
  (c10_initial_substitution_map [opSetP] [(pAtom, .fls), (qAtom, .tru)] qAtom).2.2 "q"
    (by decide)

theorem buildFold_no_false (dict : List (Formula × Formula))
    (rd : List (Formula × List Formula)) :
    ∀ (A : List Action) (acc res : List Action),
      (∀ x ∈ acc, Formula.fls ∉ x.preconditions) →
      A.foldlM (buildStep dict rd) acc = .ok res →
      ∀ x ∈ res, Formula.fls ∉ x.preconditions := by
  intro A
  induction A with
  | nil =>
    intro acc res hacc h
    rw [List.foldlM_nil] at h
    cases h
    exact hacc
  | cons a A ih =>
    intro acc res hacc h
    rw [List.foldlM_cons] at h
    cases hca : compileAction dict (getRelevantConstraints a rd) a with
    | error e =>
      rw [show buildStep dict rd acc a = .error e by rw [buildStep, hca],
        except_bind_error] at h
      cases h
    | ok a2 =>
      rw [show buildStep dict rd acc a =
          .ok (if Formula.fls ∈ a2.preconditions then acc else acc ++ [a2])
          by rw [buildStep, hca], except_bind_ok] at h
      by_cases hf : Formula.fls ∈ a2.preconditions
      · rw [if_pos hf] at h
        exact ih acc res hacc h
      · rw [if_neg hf] at h
        refine ih (acc ++ [a2]) res ?_ h
        intro x hx
        rcases List.mem_append.mp hx with hx | hx
        · exact hacc x hx
        · rcases List.mem_singleton.mp hx with rfl
          exact hf

/-- C7: whenever compilation succeeds, no action of the output problem
has the constant false among its preconditions, and any rewritten action
whose precondition set contains false is absent from the output action
list. -/
theorem c7_action_pruning (p r : Problem) (h : compile p = .ok r) :
    (∀ a ∈ r.actions, Formula.fls ∉ a.preconditions) ∧
    (∀ a, Formula.fls ∈ a.preconditions → a ∉ r.actions) := by
  have hactions : ∀ a ∈ r.actions, Formula.fls ∉ a.preconditions := by
    rw [compile] at h
    split at h
    · cases h
    · split at h
      · cases h
      · split at h
        · cases h
        · rename_i ifd _ _ monitors _ aPrime hAP
          cases h
          exact buildFold_no_false _ _ _ [] aPrime (by simp) hAP
  exact ⟨hactions, fun a hfls hmem => hactions a hmem hfls⟩

/-- C7 witness: the rewritten action of prob8 is in the output and has
no false precondition. -/
theorem c7_witness :
    Formula.fls ∉ (Action.mk "op" [] [⟨.tru, pAtom, .tru⟩,
      ⟨.tru, .atom "hold-0", .tru⟩]).preconditions :=
  (c7_action_pruning prob8 prob8Result (by decide)).1 _ (by decide)

theorem gmaGo_cons_eq_else (I : List (Formula × Formula)) (c : Formula)
    (rest : List Formula) (n : Nat) (h : isAlways c = false) :
    getMonitoringAtomsGo I (c :: rest) n =
      match evaluateConstraint c I with
      | .error e => .error e
      | .ok (tag, initStateValue) =>
        if sbViolatedCheck I c then .error (.initialStateViolation .sometimeBefore)
        else
          match getMonitoringAtomsGo I rest (n + 1) with
          | .error e => .error e
          | .ok (iRest, fRest, dRest) =>
              .ok ((if initStateValue = .tru
                    then Formula.atom (monitorName (pyStr tag) n) :: iRest else iRest),
                   monitorName (pyStr tag) n :: fRest,
                   (c, Formula.atom (monitorName (pyStr tag) n)) :: dRest) := by
  cases c <;> first | rfl | simp [isAlways] at h

theorem gmaGo_cons_ok_inv (I : List (Formula × Formula)) (c : Formula)
    (rest : List Formula) (n : Nat)
    (s : List Formula × List String × List (Formula × Formula))
    (h : getMonitoringAtomsGo I (c :: rest) n = .ok s) :
    (∃ φ, c = Formula.always φ ∧ simplify (substitute φ I) ≠ .fls ∧
      getMonitoringAtomsGo I rest n = .ok s) ∨
    (∃ tag v iRest fRest dRest,
      isAlways c = false ∧
      evaluateConstraint c I = .ok (tag, v) ∧
      sbViolatedCheck I c = false ∧
      getMonitoringAtomsGo I rest (n + 1) = .ok (iRest, fRest, dRest) ∧
      s = ((if v = Formula.tru
            then Formula.atom (monitorName (pyStr tag) n) :: iRest else iRest),
           monitorName (pyStr tag) n :: fRest,
           (c, Formula.atom (monitorName (pyStr tag) n)) :: dRest)) := by
  by_cases ha : isAlways c = true
  · obtain ⟨φ, rfl⟩ : ∃ φ, c = Formula.always φ := by
      cases c <;> simp [isAlways] at ha ⊢
    by_cases hv : simplify (substitute φ I) = .fls
    · rw [getMonitoringAtomsGo, if_pos hv] at h
      cases h
    · rw [getMonitoringAtomsGo, if_neg hv] at h
      exact Or.inl ⟨φ, rfl, hv, h⟩
  · right
    rw [Bool.not_eq_true] at ha
    rw [gmaGo_cons_eq_else I c rest n ha] at h
    revert h
    rcases hev : evaluateConstraint c I with e | ⟨tag, v⟩
    · intro h; cases h
    · intro h
      dsimp only at h
      by_cases hsb : sbViolatedCheck I c = true
      · rw [if_pos hsb] at h; cases h
      · rw [Bool.not_eq_true] at hsb
        rw [if_neg (by simp [hsb])] at h
        revert h
        rcases hrec : getMonitoringAtomsGo I rest (n + 1) with e | ⟨iR, fR, dR⟩
        · intro h; cases h
        · intro h
          dsimp only at h
          refine ⟨tag, v, iR, fR, dR, ha, rfl, hsb, rfl, ?_⟩
          exact (Except.ok.inj h).symm

theorem gmaGo_ok_no_violated_always (I : List (Formula × Formula)) (φ : Formula) :
    ∀ (C : List Formula) (n : Nat)
      (s : List Formula × List String × List (Formula × Formula)),
      getMonitoringAtomsGo I C n = .ok s → Formula.always φ ∈ C →
      simplify (substitute φ I) ≠ .fls := by
  intro C
  induction C with
  | nil => intro n s _ hm; cases hm
  | cons c C ih =>
    intro n s h hm
    rcases gmaGo_cons_ok_inv I c C n s h with ⟨ψ, rfl, hnv, hrec⟩ | ⟨_, _, iR, fR, dR, ha, _, _, hrec, _⟩
    · rcases List.mem_cons.mp hm with heq | hc
      · exact (Formula.always.inj heq.symm) ▸ hnv
      · exact ih n s hrec hc
    · rcases List.mem_cons.mp hm with heq | hc
      · rw [← heq] at ha; simp [isAlways] at ha
      · exact ih (n + 1) (iR, fR, dR) hrec hc

theorem gmaGo_append_always (I : List (Formula × Formula)) (φ : Formula)
    (hviol : simplify (substitute φ I) = .fls) :
    ∀ (Cpre : List Formula) (Cpost : List Formula) (n : Nat)
      (s : List Formula × List String × List (Formula × Formula)),
      getMonitoringAtomsGo I Cpre n = .ok s →
      getMonitoringAtomsGo I (Cpre ++ Formula.always φ :: Cpost) n =
        .error (.initialStateViolation .always) := by
  intro Cpre
  induction Cpre with
  | nil =>
    intro Cpost n s _
    rw [List.nil_append, getMonitoringAtomsGo, if_pos hviol]
  | cons c Cpre ih =>
    intro Cpost n s h
    rcases gmaGo_cons_ok_inv I c Cpre n s h with ⟨ψ, rfl, hnv, hrec⟩ |
      ⟨tag, v, iR, fR, dR, ha, hev, hsb, hrec, _⟩
    · rw [List.cons_append, getMonitoringAtomsGo, if_neg hnv]
      exact ih Cpost n s hrec
    · rw [List.cons_append, gmaGo_cons_eq_else I c _ n ha, hev]
      dsimp only
      rw [if_neg (by simp [hsb]), ih Cpost (n + 1) (iR, fR, dR) hrec]

theorem compile_error_of_gma (p : Problem) (e : CompErr)
    (h : getMonitoringAtoms (buildConstraintList p.trajectoryConstraints)
      (groundInitialState p.actions p.initialValues) = .error e) :
    compile p = .error e := by
  simp only [compile]
  rw [h]

/-- C3 (amended): whenever the normalised constraint list contains an
always constraint violated under the grounded initial-state
substitution, compile fails and produces no compiled problem; the error
is the always initial-state violation provided every constraint that
precedes the always in the list passes its own allocation step (in
particular when no violated sometime-before precedes it). -/
theorem c3_always_violation (p : Problem) (Cpre Cpost : List Formula) (φ : Formula)
    (hC : buildConstraintList p.trajectoryConstraints = Cpre ++ Formula.always φ :: Cpost)
    (hviol : simplify (substitute φ
      (groundInitialState p.actions p.initialValues)) = .fls) :
    (∃ e, compile p = .error e) ∧
    (∀ s, getMonitoringAtomsGo (groundInitialState p.actions p.initialValues) Cpre 0 =
        .ok s →
      compile p = .error (.initialStateViolation .always)) := by
  constructor
  · rcases hr : getMonitoringAtoms (buildConstraintList p.trajectoryConstraints)
      (groundInitialState p.actions p.initialValues) with e | s
    · exact ⟨e, compile_error_of_gma p e hr⟩
    · exfalso
      refine gmaGo_ok_no_violated_always _ φ
        (buildConstraintList p.trajectoryConstraints) 0 s hr ?_ hviol
      rw [hC]
      exact List.mem_append.mpr (Or.inr (List.mem_cons_self _ _))
  · intro s hs
    refine compile_error_of_gma p _ ?_
    rw [hC]
    exact gmaGo_append_always _ φ hviol Cpre Cpost 0 s hs

/-- C3 witness: prob3w carries the single violated always constraint, so
no constraint precedes it and compile fails with the always violation. -/
theorem c3_witness :
    compile prob3w = .error (.initialStateViolation .always) :=
  (c3_always_violation prob3w [] [] (.not pAtom) (by decide) (by decide)).2
    ([], [], []) (by decide)

/-- C5 (amended): for an at-most-once constraint relevant to an action,
with R the simplified regression of phi: if R equals phi structurally
the action and the effect list are unchanged; otherwise the action gains
the precondition simplify(not R or not m or phi) — with the unregressed
phi as rightmost disjunct — unless that precondition is the constant
true (then it is discarded), and the effect list gains the conditional
effect with condition R setting m to true unless R is the constant false
(then the effect is dropped). -/
theorem c5_amo_rewrite (a : Action) (φ m ρ R : Formula)
    (dict : List (Formula × Formula)) (E : List Effect)
    (hdict : findVal dict (.atMostOnce φ) = some m)
    (hm : isAtomF m = true)
    (hreg : regression φ a = .ok ρ) (hR : R = simplify ρ) :
    (R = φ → processConstraint dict (.atMostOnce φ) a E = .ok (a, E)) ∧
    (R ≠ φ →
      processConstraint dict (.atMostOnce φ) a E =
        .ok ((if simplify (emOr [emNot R, emNot m, φ]) = .tru then a
              else { a with preconditions :=
                a.preconditions ++ [simplify (emOr [emNot R, emNot m, φ])] }),
             if simplify R = .fls then E else E ++ [⟨R, m, .tru⟩])) := by
  obtain ⟨t, rfl⟩ : ∃ t, m = Formula.atom t := by
    cases m <;> simp [isAtomF] at hm ⊢
  subst hR
  constructor
  · intro heq
    simp only [processConstraint, hdict, manageAmoCompilation, hreg]
    rw [if_pos heq]
    rfl
  · intro hne
    simp only [processConstraint, hdict, manageAmoCompilation, hreg]
    rw [if_neg hne]
    dsimp only [applyPrecond, addCondEff]

/-- C5 witness: the at-most-once rewrite of p on the turn-on action adds
the precondition not seen-phi-0 or p and the unconditional conditional
effect setting seen-phi-0. -/
theorem c5_witness :
    processConstraint dict5 amoConstr turnOnP [] =
      .ok (⟨"turn_on", [.or [.not m5, pAtom]], [⟨.tru, pAtom, .tru⟩]⟩,
           [⟨.tru, m5, .tru⟩]) := by
  simp only [amoConstr]
  rw [(c5_amo_rewrite turnOnP pAtom m5
      (.or [.tru, .and [pAtom, .not .fls]]) .tru dict5 []
      (by decide) (by decide) (by decide) (by decide)).2 (by decide)]
  decide

theorem flattenConj_cons (z : Formula) (l : List Formula) :
    flattenConj (z :: l) = conjuncts z ++ flattenConj l := by
  cases z <;> rfl

theorem mem_dedupAcc : ∀ (l seen : List Formula) (x : Formula),
    x ∈ dedupAcc l seen ↔ (x ∈ l ∧ x ∉ seen) := by
  intro l
  induction l with
  | nil => simp [dedupAcc]
  | cons φ r ih =>
    intro seen x
    by_cases hφ : φ ∈ seen
    · rw [dedupAcc, if_pos hφ, ih]
      constructor
      · exact fun ⟨h1, h2⟩ => ⟨List.mem_cons.mpr (Or.inr h1), h2⟩
      · rintro ⟨h1, h2⟩
        rcases List.mem_cons.mp h1 with rfl | h1
        · exact absurd hφ h2
        · exact ⟨h1, h2⟩
    · rw [dedupAcc, if_neg hφ]
      constructor
      · intro hx
        rcases List.mem_cons.mp hx with rfl | hx
        · exact ⟨List.mem_cons_self _ _, hφ⟩
        · rcases (ih _ x).mp hx with ⟨h1, h2⟩
          simp only [List.mem_cons, not_or] at h2
          exact ⟨List.mem_cons.mpr (Or.inr h1), h2.2⟩
      · rintro ⟨h1, h2⟩
        rcases List.mem_cons.mp h1 with rfl | h1
        · exact List.mem_cons_self _ _
        · by_cases hxφ : x = φ
          · subst hxφ; exact List.mem_cons_self _ _
          · exact List.mem_cons.mpr (Or.inr ((ih _ x).mpr
              ⟨h1, by simp [hxφ, h2]⟩))

theorem mem_dedupKF (l : List Formula) (x : Formula) : x ∈ dedupKF l ↔ x ∈ l := by
  rw [dedupKF, mem_dedupAcc]
  simp

theorem isAtomF_ne_tru (x : Formula) (h : isAtomF x = true) : x ≠ Formula.tru := by
  cases x <;> simp [isAtomF] at h ⊢

theorem isAtomF_ne_fls (x : Formula) (h : isAtomF x = true) : x ≠ Formula.fls := by
  cases x <;> simp [isAtomF] at h ⊢

theorem conjuncts_of_atom (x : Formula) (h : isAtomF x = true) : conjuncts x = [x] := by
  cases x <;> first | rfl | simp [isAtomF] at h

theorem mem_flattenConj (l : List Formula) (y x : Formula)
    (hy : y ∈ l) (hx : x ∈ conjuncts y) : x ∈ flattenConj l := by
  induction l with
  | nil => cases hy
  | cons z r ih =>
    rw [flattenConj_cons]
    rcases List.mem_cons.mp hy with rfl | hy2
    · exact List.mem_append.mpr (Or.inl hx)
    · exact List.mem_append.mpr (Or.inr (ih hy2))

theorem mem_conjuncts_mkAndS (l : List Formula) (x : Formula)
    (hx : x ∈ flattenConj l) (hatom : isAtomF x = true)
    (hne : mkAndS l ≠ .fls) : x ∈ conjuncts (mkAndS l) := by
  have hxt : x ≠ Formula.tru := isAtomF_ne_tru x hatom
  have hxm : x ∈ (flattenConj l).filter (fun φ => decide (φ ≠ Formula.tru)) :=
    List.mem_filter.mpr ⟨hx, by simp [hxt]⟩
  simp only [mkAndS] at hne ⊢
  by_cases hf : Formula.fls ∈ (flattenConj l).filter (fun φ => decide (φ ≠ Formula.tru))
  · rw [if_pos hf] at hne
    exact absurd rfl hne
  · rw [if_neg hf] at hne ⊢
    have hxd : x ∈ dedupKF ((flattenConj l).filter (fun φ => decide (φ ≠ Formula.tru))) :=
      (mem_dedupKF _ x).mpr hxm
    rcases hd : dedupKF ((flattenConj l).filter (fun φ => decide (φ ≠ Formula.tru)))
      with _ | ⟨y, _ | ⟨z, ys⟩⟩
    · rw [hd] at hxd; cases hxd
    · rw [hd] at hxd
      rcases List.mem_singleton.mp hxd with rfl
      rw [conjuncts_of_atom x hatom]
      exact List.mem_singleton.mpr rfl
    · rw [hd] at hxd
      exact hxd

theorem flattenConj_of_atoms : ∀ (l : List Formula),
    (∀ x ∈ l, isAtomF x = true) → flattenConj l = l := by
  intro l
  induction l with
  | nil => intro _; rfl
  | cons z r ih =>
    intro h
    rw [flattenConj_cons, conjuncts_of_atom z (h z (List.mem_cons_self _ _)),
      ih (fun x hx => h x (List.mem_cons.mpr (Or.inr hx)))]
    rfl

theorem simplifyList_of_atoms : ∀ (l : List Formula),
    (∀ x ∈ l, isAtomF x = true) → simplifyList l = l := by
  intro l
  induction l with
  | nil => intro _; rfl
  | cons z r ih =>
    intro h
    have hz : isAtomF z = true := h z (List.mem_cons_self _ _)
    obtain ⟨t, rfl⟩ : ∃ t, z = Formula.atom t := by
      cases z <;> simp [isAtomF] at hz ⊢
    rw [simplifyList, ih (fun x hx => h x (List.mem_cons.mpr (Or.inr hx)))]
    rfl

theorem mkAndS_atoms_ne_fls (l : List Formula)
    (h : ∀ x ∈ l, isAtomF x = true) : mkAndS l ≠ .fls := by
  simp only [mkAndS]
  rw [flattenConj_of_atoms l h]
  have hf : Formula.fls ∉ l.filter (fun φ => decide (φ ≠ Formula.tru)) := by
    intro hmem
    exact isAtomF_ne_fls _ (h _ (List.mem_filter.mp hmem).1) rfl
  rw [if_neg hf]
  rcases hd : dedupKF (l.filter (fun φ => decide (φ ≠ Formula.tru)))
    with _ | ⟨y, _ | ⟨z, ys⟩⟩
  · simp
  · have hy : y ∈ l.filter (fun φ => decide (φ ≠ Formula.tru)) := by
      rw [← mem_dedupKF, hd]; exact List.mem_singleton.mpr rfl
    exact isAtomF_ne_fls y (h y (List.mem_filter.mp hy).1)
  · simp

theorem emAnd_eq_and (l : List Formula) (h : 2 ≤ l.length) : emAnd l = .and l :=
  match l, h with
  | _ :: _ :: _, _ => rfl

theorem mem_conjuncts_simplify_emAnd_atoms (ms : List Formula) (m : Formula)
    (hms : ∀ x ∈ ms, isAtomF x = true) (hm : m ∈ ms) :
    m ∈ conjuncts (simplify (emAnd ms)) := by
  have hmatom : isAtomF m = true := hms m hm
  rcases ms with _ | ⟨m0, _ | ⟨m1, rest⟩⟩
  · cases hm
  · rcases List.mem_singleton.mp hm with rfl
    obtain ⟨t, rfl⟩ : ∃ t, m = Formula.atom t := by
      cases m <;> simp [isAtomF] at hmatom ⊢
    show Formula.atom t ∈ conjuncts (simplify (Formula.atom t))
    exact List.mem_singleton.mpr rfl
  · rw [emAnd_eq_and _ (by simp)]
    have hsl : simplify (Formula.and (m0 :: m1 :: rest)) =
        mkAndS (m0 :: m1 :: rest) := by
      rw [simplify, simplifyList_of_atoms _ hms]
    rw [hsl]
    refine mem_conjuncts_mkAndS _ m ?_ hmatom (mkAndS_atoms_ne_fls _ hms)
    rw [flattenConj_of_atoms _ hms]
    exact hm

theorem simplify_emAnd_atoms_ne_fls (ms : List Formula)
    (hms : ∀ x ∈ ms, isAtomF x = true) (hne : ms ≠ []) :
    simplify (emAnd ms) ≠ .fls := by
  rcases ms with _ | ⟨m0, _ | ⟨m1, rest⟩⟩
  · exact absurd rfl hne
  · have h0 : isAtomF m0 = true := hms m0 (List.mem_cons_self _ _)
    obtain ⟨t, rfl⟩ : ∃ t, m0 = Formula.atom t := by
      cases m0 <;> simp [isAtomF] at h0 ⊢
    show simplify (Formula.atom t) ≠ Formula.fls
    simp [simplify]
  · rw [emAnd_eq_and _ (by simp), simplify, simplifyList_of_atoms _ hms]
    exact mkAndS_atoms_ne_fls _ hms

theorem findVal_mem {α β : Type} [DecidableEq α] :
    ∀ (l : List (α × β)) (x : α) (v : β), findVal l x = some v → (x, v) ∈ l := by
  intro l
  induction l with
  | nil => intro x v h; cases h
  | cons kv r ih =>
    intro x v h
    rw [findVal] at h
    split_ifs at h with hx
    · rcases Option.some_inj.mp h with rfl
      rcases hx with rfl
      exact List.mem_cons_self _ _
    · exact List.mem_cons.mpr (Or.inr (ih x v h))

theorem gmaGo_dict_atoms (I : List (Formula × Formula)) :
    ∀ (C : List Formula) (n : Nat)
      (s : List Formula × List String × List (Formula × Formula)),
      getMonitoringAtomsGo I C n = .ok s →
      ∀ kv ∈ s.2.2, isAtomF kv.2 = true := by
  intro C
  induction C with
  | nil =>
    intro n s h kv hkv
    cases h
    cases hkv
  | cons c C ih =>
    intro n s h kv hkv
    rcases gmaGo_cons_ok_inv I c C n s h with ⟨φ, rfl, _, hrec⟩ |
      ⟨tag, v, iR, fR, dR, _, _, _, hrec, rfl⟩
    · exact ih n s hrec kv hkv
    · rcases List.mem_cons.mp hkv with rfl | hkv2
      · rfl
      · exact ih (n + 1) (iR, fR, dR) hrec kv hkv2

theorem mapM_lookup_forall (dict : List (Formula × Formula)) :
    ∀ (L : List Formula) (ms : List Formula),
      L.mapM (fun c =>
        match findVal dict c with
        | some m => Except.ok m
        | none => Except.error CompErr.keyError) = .ok ms →
      List.Forall₂ (fun c m => findVal dict c = some m) L ms := by
  intro L
  induction L with
  | nil =>
    intro ms h
    rw [List.mapM_nil] at h
    cases h
    exact List.Forall₂.nil
  | cons c L ih =>
    intro ms h
    rw [List.mapM_cons] at h
    revert h
    rcases hc : findVal dict c with _ | m
    · intro h; dsimp only at h; cases h
    · intro h
      dsimp only at h
      rw [except_bind_ok] at h
      rcases hrec : L.mapM (fun c =>
          match findVal dict c with
          | some m => Except.ok m
          | none => Except.error CompErr.keyError) with e | msR
      · rw [hrec, except_bind_error] at h
        cases h
      · rw [hrec, except_bind_ok] at h
        rcases Except.ok.inj h with rfl
        exact List.Forall₂.cons hc (ih msR hrec)

theorem forall₂_mem_right {α β : Type} {R : α → β → Prop} :
    ∀ {L : List α} {M : List β}, List.Forall₂ R L M → ∀ m ∈ M, ∃ c ∈ L, R c m := by
  intro L M h
  induction h with
  | nil => intro m hm; cases hm
  | cons hr _ ih =>
    intro m hm
    rcases List.mem_cons.mp hm with rfl | hm2
    · exact ⟨_, List.mem_cons_self _ _, hr⟩
    · rcases ih m hm2 with ⟨c, hc1, hc2⟩
      exact ⟨c, List.mem_cons.mpr (Or.inr hc1), hc2⟩

theorem simplifyList_eq_map : ∀ (l : List Formula), simplifyList l = l.map simplify := by
  intro l
  induction l with
  | nil => rfl
  | cons a r ih => rw [simplifyList, ih, List.map_cons]

/-- C8 (amended): the output goal is the simplified conjunction of the
original goals followed by the conjunction of the allocated monitors of
exactly the sometime and sometime-after constraints of the normalised
list, in constraint-list order (no other constraint kind contributes a
monitor); and every landmark monitor occurs in the output goal
conjunction provided the conjunction does not simplify to the constant
false. -/
theorem c8_goal_augmentation (p r : Problem)
    (iPrime : List Formula) (fPrime : List String) (dict : List (Formula × Formula))
    (ms : List Formula)
    (hm : getMonitoringAtoms (buildConstraintList p.trajectoryConstraints)
        (groundInitialState p.actions p.initialValues) = .ok (iPrime, fPrime, dict))
    (hl : landmarkMonitors (buildConstraintList p.trajectoryConstraints) dict = .ok ms)
    (hc : compile p = .ok r) :
    r.goals = [simplify (emAnd (p.goals ++ [emAnd ms]))] ∧
    List.Forall₂ (fun c m => findVal dict c = some m)
      (landmarkConstraints (buildConstraintList p.trajectoryConstraints)) ms ∧
    (simplify (emAnd (p.goals ++ [emAnd ms])) ≠ .fls →
      ∀ m ∈ ms, m ∈ conjuncts (simplify (emAnd (p.goals ++ [emAnd ms])))) := by
  have hforall : List.Forall₂ (fun c m => findVal dict c = some m)
      (landmarkConstraints (buildConstraintList p.trajectoryConstraints)) ms :=
    mapM_lookup_forall dict _ ms hl
  have hatoms : ∀ m ∈ ms, isAtomF m = true := by
    intro m hmm
    rcases forall₂_mem_right hforall m hmm with ⟨c, _, hcm⟩
    exact gmaGo_dict_atoms _ _ 0 (iPrime, fPrime, dict) hm (c, m) (findVal_mem dict c m hcm)
  refine ⟨?_, hforall, ?_⟩
  · simp only [compile] at hc
    rw [hm] at hc
    dsimp only at hc
    rw [hl] at hc
    dsimp only at hc
    revert hc
    rcases hb : buildAPrime dict
        (buildRelevancyDict (buildConstraintList p.trajectoryConstraints))
        p.actions with e | aPrime
    · intro hc; cases hc
    · intro hc
      dsimp only at hc
      rcases Except.ok.inj hc with rfl
      rfl
  · intro hne m hmm
    rcases hg : p.goals with _ | ⟨g, gs⟩
    · rw [hg, List.nil_append] at hne
      rw [List.nil_append]
      rw [show emAnd [emAnd ms] = emAnd ms from rfl] at hne ⊢
      exact mem_conjuncts_simplify_emAnd_atoms ms m hatoms hmm
    · rw [hg, List.cons_append] at hne
      rw [List.cons_append]
      rw [emAnd_eq_and _ (by simp)] at hne ⊢
      rw [show simplify (Formula.and (g :: (gs ++ [emAnd ms]))) =
          mkAndS (simplifyList (g :: (gs ++ [emAnd ms]))) from rfl] at hne ⊢
      refine mem_conjuncts_mkAndS _ m ?_ (hatoms m hmm) hne
      refine mem_flattenConj _ (simplify (emAnd ms)) m ?_
        (mem_conjuncts_simplify_emAnd_atoms ms m hatoms hmm)
      rw [simplifyList_eq_map]
      exact List.mem_map.mpr ⟨emAnd ms,
        List.mem_cons.mpr (Or.inr (List.mem_append.mpr (Or.inr
          (List.mem_singleton.mpr rfl)))), rfl⟩

/-- C8 witness: on prob1 the goal becomes exactly the monitor hold-0 and
the monitor occurs in the goal conjunction. -/
theorem c8_witness :
    Formula.atom "hold-0" ∈ conjuncts (simplify (emAnd (prob1.goals ++
      [emAnd [Formula.atom "hold-0"]]))) :=
  (c8_goal_augmentation prob1 prob1Result [] ["hold-0"]
      [(.sometimeAfter pAtom qAtom, .atom "hold-0")] [.atom "hold-0"]
      (by decide) (by decide) (by decide)).2.2 (by decide) _ (by decide)

theorem digitCh_toNat (d : Nat) (h : d < 10) : (digitCh d).toNat = 48 + d := by
  interval_cases d <;> decide

theorem decVal_decDigitsAux : ∀ (fuel n : Nat), n < fuel →
    decVal (decDigitsAux fuel n) = n := by
  intro fuel
  induction fuel with
  | zero => intro n h; omega
  | succ fuel ih =>
    intro n h
    rw [decDigitsAux]
    by_cases h10 : n < 10
    · rw [if_pos h10, decVal, decVal, digitCh_toNat n h10]
      omega
    · rw [if_neg h10, decVal, digitCh_toNat (n % 10) (by omega),
        ih (n / 10) (by omega)]
      omega

theorem decDigits_inj (n1 n2 : Nat) (h : decDigits n1 = decDigits n2) : n1 = n2 := by
  have h1 := decVal_decDigitsAux (n1 + 1) n1 (by omega)
  have h2 := decVal_decDigitsAux (n2 + 1) n2 (by omega)
  rw [show decDigitsAux (n1 + 1) n1 = decDigits n1 from rfl] at h1
  rw [show decDigitsAux (n2 + 1) n2 = decDigits n2 from rfl] at h2
  rw [← h1, ← h2, h]

theorem monitorName_data (t : String) (n : Nat) :
    (monitorName t n).data = (t ++ SEPARATOR).data ++ (decDigits n).reverse := by
  rw [monitorName, String.data_append]
  rfl

theorem monitorName_inj (t1 t2 : String) (n1 n2 : Nat)
    (ht1 : t1 = HOLD ∨ t1 = SEEN_PHI ∨ t1 = SEEN_PSI)
    (ht2 : t2 = HOLD ∨ t2 = SEEN_PHI ∨ t2 = SEEN_PSI)
    (h : monitorName t1 n1 = monitorName t2 n2) : t1 = t2 ∧ n1 = n2 := by
  have hd := congrArg String.data h
  rw [monitorName_data, monitorName_data] at hd
  have sameTag : ∀ (n1 n2 : Nat) (t : String),
      (t ++ SEPARATOR).data ++ (decDigits n1).reverse =
        (t ++ SEPARATOR).data ++ (decDigits n2).reverse → n1 = n2 := by
    intro n1 n2 t hh
    exact decDigits_inj _ _ (List.reverse_injective (List.append_inj hh rfl).2)
  rcases ht1 with rfl | rfl | rfl <;> rcases ht2 with rfl | rfl | rfl
  · exact ⟨rfl, sameTag n1 n2 _ hd⟩
  · exfalso
    have h5 := congrArg (List.take 5) hd
    rw [List.take_left' (by decide), List.take_append_of_le_length (by decide)] at h5
    exact absurd h5 (by decide)
  · exfalso
    have h5 := congrArg (List.take 5) hd
    rw [List.take_left' (by decide), List.take_append_of_le_length (by decide)] at h5
    exact absurd h5 (by decide)
  · exfalso
    have h5 := congrArg (List.take 5) hd
    rw [List.take_append_of_le_length (by decide), List.take_left' (by decide)] at h5
    exact absurd h5 (by decide)
  · exact ⟨rfl, sameTag n1 n2 _ hd⟩
  · exact absurd (List.append_inj hd (by decide)).1 (by decide)
  · exfalso
    have h5 := congrArg (List.take 5) hd
    rw [List.take_append_of_le_length (by decide), List.take_left' (by decide)] at h5
    exact absurd h5 (by decide)
  · exact absurd (List.append_inj hd (by decide)).1 (by decide)
  · exact ⟨rfl, sameTag n1 n2 _ hd⟩

theorem specAlloc_cons_not_always (c : Formula) (rest : List Formula) (n : Nat)
    (h : isAlways c = false) :
    specAlloc (c :: rest) n =
      (c, Formula.atom (monitorName (specTag c) n)) :: specAlloc rest (n + 1) := by
  cases c <;> first | rfl | simp [isAlways] at h

theorem specAlloc_mem : ∀ (C : List Formula) (n : Nat) (c m : Formula),
    (c, m) ∈ specAlloc C n →
    c ∈ C ∧ isAlways c = false ∧
      ∃ k, n ≤ k ∧ m = Formula.atom (monitorName (specTag c) k) := by
  intro C
  induction C with
  | nil => intro n c m h; cases h
  | cons c0 rest ih =>
    intro n c m h
    by_cases ha : isAlways c0 = true
    · obtain ⟨φ, rfl⟩ : ∃ φ, c0 = Formula.always φ := by
        cases c0 <;> simp [isAlways] at ha ⊢
      rw [specAlloc] at h
      rcases ih n c m h with ⟨h1, h2, h3⟩
      exact ⟨List.mem_cons.mpr (Or.inr h1), h2, h3⟩
    · rw [Bool.not_eq_true] at ha
      rw [specAlloc_cons_not_always c0 rest n ha] at h
      rcases List.mem_cons.mp h with heq | h2
      · rcases Prod.mk.injEq .. ▸ heq with ⟨rfl, rfl⟩
        exact ⟨List.mem_cons_self _ _, ha, n, Nat.le_refl n, rfl⟩
      · rcases ih (n + 1) c m h2 with ⟨h1, hna, k, hk, hm⟩
        exact ⟨List.mem_cons.mpr (Or.inr h1), hna, k, by omega, hm⟩

theorem specTag_values (c : Formula) (hk : isConstraintKind c = true)
    (ha : isAlways c = false) :
    specTag c = HOLD ∨ specTag c = SEEN_PHI ∨ specTag c = SEEN_PSI := by
  cases c <;> simp [isConstraintKind, isAlways, specTag] at hk ha ⊢

theorem specAlloc_value_inj :
    ∀ (C : List Formula) (n : Nat) (c1 c2 m : Formula),
      (∀ c ∈ C, isConstraintKind c = true) →
      (c1, m) ∈ specAlloc C n → (c2, m) ∈ specAlloc C n → c1 = c2 := by
  intro C
  induction C with
  | nil => intro n c1 c2 m _ h; cases h
  | cons c0 rest ih =>
    intro n c1 c2 m hkinds h1 h2
    have hkindsR : ∀ c ∈ rest, isConstraintKind c = true :=
      fun c hc => hkinds c (List.mem_cons.mpr (Or.inr hc))
    by_cases ha : isAlways c0 = true
    · obtain ⟨φ, rfl⟩ : ∃ φ, c0 = Formula.always φ := by
        cases c0 <;> simp [isAlways] at ha ⊢
      rw [specAlloc] at h1 h2
      exact ih n c1 c2 m hkindsR h1 h2
    · rw [Bool.not_eq_true] at ha
      rw [specAlloc_cons_not_always c0 rest n ha] at h1 h2
      have hcounter : ∀ c3 : Formula,
          (c3, Formula.atom (monitorName (specTag c0) n)) ∈ specAlloc rest (n + 1) →
          False := by
        intro c3 hmem
        rcases specAlloc_mem rest (n + 1) c3 _ hmem with ⟨hc3, hna3, k, hk, hm⟩
        have hke : isConstraintKind c3 = true := hkindsR c3 hc3
        have hnames : monitorName (specTag c0) n = monitorName (specTag c3) k :=
          Formula.atom.inj hm
        have := (monitorName_inj _ _ n k
          (specTag_values c0 (hkinds c0 (List.mem_cons_self _ _)) ha)
          (specTag_values c3 hke hna3) hnames).2
        omega
      rcases List.mem_cons.mp h1 with heq1 | h1r
      · rcases Prod.mk.injEq .. ▸ heq1 with ⟨rfl, rfl⟩
        rcases List.mem_cons.mp h2 with heq2 | h2r
        · exact (Prod.mk.injEq .. ▸ heq2 : _ ∧ _).1.symm
        · exact absurd h2r (fun hh => hcounter c2 hh)
      · rcases List.mem_cons.mp h2 with heq2 | h2r
        · rcases Prod.mk.injEq .. ▸ heq2 with ⟨rfl, rfl⟩
          exact absurd h1r (fun hh => hcounter c1 hh)
        · exact ih (n + 1) c1 c2 m hkindsR h1r h2r

theorem evaluateConstraint_tag (I : List (Formula × Formula)) (c : Formula)
    (tag : Option String) (v : Formula)
    (hk : isConstraintKind c = true) (ha : isAlways c = false)
    (hev : evaluateConstraint c I = .ok (tag, v)) : pyStr tag = specTag c := by
  cases c <;> simp [isConstraintKind, isAlways] at hk ha <;>
    (rw [evaluateConstraint] at hev
     rcases Except.ok.inj hev with h
     rcases Prod.mk.injEq .. ▸ h with ⟨rfl, rfl⟩
     rfl)

theorem gmaGo_dict_eq_specAlloc (I : List (Formula × Formula)) :
    ∀ (C : List Formula) (n : Nat)
      (s : List Formula × List String × List (Formula × Formula)),
      (∀ c ∈ C, isConstraintKind c = true) →
      getMonitoringAtomsGo I C n = .ok s →
      s.2.2 = specAlloc C n ∧
      s.2.1 = (specAlloc C n).map (fun kv => atomStr kv.2) := by
  intro C
  induction C with
  | nil =>
    intro n s _ h
    cases h
    exact ⟨rfl, rfl⟩
  | cons c rest ih =>
    intro n s hkinds h
    have hkindsR : ∀ c2 ∈ rest, isConstraintKind c2 = true :=
      fun c2 hc => hkinds c2 (List.mem_cons.mpr (Or.inr hc))
    rcases gmaGo_cons_ok_inv I c rest n s h with ⟨φ, rfl, _, hrec⟩ |
      ⟨tag, v, iR, fR, dR, ha, hev, _, hrec, rfl⟩
    · rw [specAlloc]
      exact ih n s hkindsR hrec
    · have htag : pyStr tag = specTag c :=
        evaluateConstraint_tag I c tag v (hkinds c (List.mem_cons_self _ _)) ha hev
      rcases ih (n + 1) (iR, fR, dR) hkindsR hrec with ⟨hd, hf⟩
      dsimp only at hd hf
      rw [specAlloc_cons_not_always c rest n ha]
      constructor
      · show (c, Formula.atom (monitorName (pyStr tag) n)) :: dR = _
        rw [htag, hd]
      · show monitorName (pyStr tag) n :: fR = _
        rw [htag, hf, List.map_cons]
        rfl

theorem specAlloc_always_none : ∀ (C : List Formula) (n : Nat) (φ : Formula),
    findVal (specAlloc C n) (Formula.always φ) = none := by
  intro C
  induction C with
  | nil => intro n φ; rfl
  | cons c rest ih =>
    intro n φ
    by_cases ha : isAlways c = true
    · obtain ⟨ψ, rfl⟩ : ∃ ψ, c = Formula.always ψ := by
        cases c <;> simp [isAlways] at ha ⊢
      rw [specAlloc]
      exact ih n φ
    · rw [Bool.not_eq_true] at ha
      rw [specAlloc_cons_not_always c rest n ha, findVal,
        if_neg (fun hh : Formula.always φ = c => by
          rw [← hh] at ha; simp [isAlways] at ha)]
      exact ih (n + 1) φ

/-- C9: monitoring-atom allocation assigns every non-always constraint
of the normalised list one fresh boolean fluent whose name is the kind
tag (hold for sometime and sometime-after, seen-psi for sometime-before,
seen-phi for at-most-once) followed by a dash and a single decimal
counter over allocation order starting at zero; the constraint to
monitor map is injective and always constraints get no entry. -/
theorem c9_monitor_allocation (C : List Formula) (I : List (Formula × Formula))
    (iPrime : List Formula) (fluents : List String) (dict : List (Formula × Formula))
    (hkinds : ∀ c ∈ C, isConstraintKind c = true)
    (h : getMonitoringAtoms C I = .ok (iPrime, fluents, dict)) :
    dict = specAlloc C 0 ∧
    fluents = (specAlloc C 0).map (fun kv => atomStr kv.2) ∧
    (∀ φ, findVal dict (.always φ) = none) ∧
    (∀ c1 c2 m, findVal dict c1 = some m → findVal dict c2 = some m → c1 = c2) := by
  rcases gmaGo_dict_eq_specAlloc I C 0 (iPrime, fluents, dict) hkinds h with ⟨hd, hf⟩
  dsimp only at hd hf
  refine ⟨hd, hf, ?_, ?_⟩
  · intro φ
    rw [hd]
    exact specAlloc_always_none C 0 φ
  · intro c1 c2 m h1 h2
    rw [hd] at h1 h2
    exact specAlloc_value_inj C 0 c1 c2 m hkinds
      (findVal_mem _ _ _ h1) (findVal_mem _ _ _ h2)

/-- C9 witness: on the two-constraint list the allocator produces
hold-0 and seen-phi-1 and the dictionary matches the specified
allocation map. -/
theorem c9_witness :
    ([(Formula.sometime pAtom, Formula.atom "hold-0"),
      (Formula.atMostOnce qAtom, Formula.atom "seen-phi-1")] :
        List (Formula × Formula)) = specAlloc c9List 0 :=
  (c9_monitor_allocation c9List [] [] ["hold-0", "seen-phi-1"]
    [(Formula.sometime pAtom, Formula.atom "hold-0"),
     (Formula.atMostOnce qAtom, Formula.atom "seen-phi-1")]
    (by decide) (by decide)).1

theorem emOr_eq_or (l : List Formula) (h : 2 ≤ l.length) : emOr l = .or l :=
  match l, h with
  | _ :: _ :: _, _ => rfl

theorem gammaLoop_no_match (literal : Formula) :
    ∀ (effs : List Effect) (acc : List Formula),
      (∀ eff ∈ effs, literal ≠ effLiteral eff) →
      gammaLoop literal effs acc = (if acc = [] then .fls else emOr acc) := by
  intro effs
  induction effs with
  | nil => intro acc _; rfl
  | cons e r ih =>
    intro acc h
    rw [gammaLoop, if_neg (h e (List.mem_cons_self _ _))]
    exact ih acc (fun e2 h2 => h e2 (List.mem_cons.mpr (Or.inr h2)))

theorem gamma_untouched (a : Action) (s : String)
    (hwf : WFAction a) (h : ∀ e ∈ a.effects, e.fluent ≠ Formula.atom s) :
    gamma (Formula.atom s) a = .fls ∧
    gamma (Formula.not (Formula.atom s)) a = .fls := by
  have hlit : ∀ e ∈ a.effects,
      Formula.atom s ≠ effLiteral e ∧
      Formula.not (Formula.atom s) ≠ effLiteral e := by
    intro e he
    obtain ⟨t, ht⟩ : ∃ t, e.fluent = Formula.atom t := by
      have := hwf e he
      cases hfl : e.fluent <;> rw [hfl] at this <;>
        first | exact ⟨_, rfl⟩ | simp [isAtomF] at this
    have hts : Formula.atom t ≠ Formula.atom s := ht ▸ h e he
    rw [effLiteral, ht]
    split_ifs
    · constructor
      · intro hh; cases hh
      · intro hh
        exact hts (Formula.not.inj hh).symm
    · constructor
      · intro hh
        exact hts hh.symm
      · intro hh; cases hh
  constructor
  · rw [gamma, gammaLoop_no_match _ a.effects [] (fun e he => (hlit e he).1)]
    rfl
  · rw [gamma, gammaLoop_no_match _ a.effects [] (fun e he => (hlit e he).2)]
    rfl

theorem mem_freeVarsList (l : List Formula) (x y : Formula)
    (hx : x ∈ l) (hy : y ∈ freeVars x) : y ∈ freeVarsList l := by
  induction l with
  | nil => cases hx
  | cons z r ih =>
    rw [freeVarsList]
    rcases List.mem_cons.mp hx with rfl | hx2
    · exact List.mem_append.mpr (Or.inl hy)
    · exact List.mem_append.mpr (Or.inr (ih hx2))

theorem regress_untouched (a : Action) (hwf : WFAction a) :
    ∀ (ψ : Formula), IsBoolForm ψ → Untouched a ψ →
      ∃ ρ, regression ψ a = .ok ρ ∧ simplify ρ = simplify ψ := by
  intro ψ hb
  induction hb with
  | tru => exact fun _ => ⟨.tru, rfl, rfl⟩
  | fls => exact fun _ => ⟨.fls, rfl, rfl⟩
  | atom s =>
    intro hu
    refine ⟨gammaSubstitution (.atom s) a, rfl, ?_⟩
    have hne : ∀ e ∈ a.effects, e.fluent ≠ Formula.atom s := by
      intro e he heq
      exact hu e he (by rw [heq]; exact List.mem_singleton.mpr rfl)
    rcases gamma_untouched a s hwf hne with ⟨h1, h2⟩
    rw [gammaSubstitution]
    dsimp only [emNot]
    rw [h1, h2]
    rfl
  | not φ hφ ih =>
    intro hu
    rcases ih hu with ⟨ρ, hρ, hs⟩
    refine ⟨.not ρ, ?_, ?_⟩
    · rw [regression, hρ]
      rfl
    · rw [show simplify (Formula.not ρ) = mkNotS (simplify ρ) from rfl, hs]
      rfl
  | and l h2 hall ih =>
    intro hu
    have hlist : ∀ (l2 : List Formula), (∀ x ∈ l2, x ∈ l) →
        ∃ r2, regressionList l2 a = .ok r2 ∧
          simplifyList r2 = simplifyList l2 ∧ r2.length = l2.length := by
      intro l2
      induction l2 with
      | nil => exact fun _ => ⟨[], rfl, rfl, rfl⟩
      | cons x r ihr =>
        intro hsub
        have hux : Untouched a x := by
          intro e he hmem
          exact hu e he (mem_freeVarsList l x _ (hsub x (List.mem_cons_self _ _)) hmem)
        rcases ih x (hsub x (List.mem_cons_self _ _)) hux with ⟨ρx, hx1, hx2⟩
        rcases ihr (fun y hy => hsub y (List.mem_cons.mpr (Or.inr hy))) with
          ⟨r2, hr1, hr2, hr3⟩
        refine ⟨ρx :: r2, ?_, ?_, ?_⟩
        · rw [regressionList, hx1, hr1]
        · rw [simplifyList, simplifyList, hx2, hr2]
        · simp [hr3]
    rcases hlist l (fun x hx => hx) with ⟨r2, hr1, hr2, hr3⟩
    refine ⟨emAnd r2, ?_, ?_⟩
    · rw [regression, hr1]
    · rw [emAnd_eq_and r2 (hr3 ▸ h2),
        show simplify (Formula.and r2) = mkAndS (simplifyList r2) from rfl, hr2]
      rfl
  | or l h2 hall ih =>
    intro hu
    have hlist : ∀ (l2 : List Formula), (∀ x ∈ l2, x ∈ l) →
        ∃ r2, regressionList l2 a = .ok r2 ∧
          simplifyList r2 = simplifyList l2 ∧ r2.length = l2.length := by
      intro l2
      induction l2 with
      | nil => exact fun _ => ⟨[], rfl, rfl, rfl⟩
      | cons x r ihr =>
        intro hsub
        have hux : Untouched a x := by
          intro e he hmem
          exact hu e he (mem_freeVarsList l x _ (hsub x (List.mem_cons_self _ _)) hmem)
        rcases ih x (hsub x (List.mem_cons_self _ _)) hux with ⟨ρx, hx1, hx2⟩
        rcases ihr (fun y hy => hsub y (List.mem_cons.mpr (Or.inr hy))) with
          ⟨r2, hr1, hr2, hr3⟩
        refine ⟨ρx :: r2, ?_, ?_, ?_⟩
        · rw [regressionList, hx1, hr1]
        · rw [simplifyList, simplifyList, hx2, hr2]
        · simp [hr3]
    rcases hlist l (fun x hx => hx) with ⟨r2, hr1, hr2, hr3⟩
    refine ⟨emOr r2, ?_, ?_⟩
    · rw [regression, hr1]
    · rw [emOr_eq_or r2 (hr3 ▸ h2),
        show simplify (Formula.or r2) = mkOrS (simplifyList r2) from rfl, hr2]
      rfl

/-- C6: regression fixed point.  For every purely boolean formula whose
fluents no effect of a grounded action writes, the simplified regression
through the action is structurally identical to the simplified formula;
consequently, for every constraint kind whose (already simplified)
arguments the action does not touch, the per-constraint rewriting leaves
the action unchanged and emits no precondition and no conditional
effect. -/
theorem c6_regression_fixed_point (a : Action) (hwf : WFAction a) :
    (∀ ψ, IsBoolForm ψ → Untouched a ψ →
      ∃ ρ, regression ψ a = .ok ρ ∧ simplify ρ = simplify ψ) ∧
    (∀ (dict : List (Formula × Formula)) (E : List Effect) (φ : Formula),
      IsBoolForm φ → Untouched a φ → simplify φ = φ →
      processConstraint dict (.always φ) a E = .ok (a, E)) ∧
    (∀ (dict : List (Formula × Formula)) (E : List Effect) (φ m : Formula),
      findVal dict (.sometime φ) = some m →
      IsBoolForm φ → Untouched a φ → simplify φ = φ →
      processConstraint dict (.sometime φ) a E = .ok (a, E)) ∧
    (∀ (dict : List (Formula × Formula)) (E : List Effect) (φ m : Formula),
      findVal dict (.atMostOnce φ) = some m →
      IsBoolForm φ → Untouched a φ → simplify φ = φ →
      processConstraint dict (.atMostOnce φ) a E = .ok (a, E)) ∧
    (∀ (dict : List (Formula × Formula)) (E : List Effect) (φ ψ m : Formula),
      findVal dict (.sometimeBefore φ ψ) = some m →
      IsBoolForm φ → Untouched a φ → simplify φ = φ →
      IsBoolForm ψ → Untouched a ψ → simplify ψ = ψ →
      processConstraint dict (.sometimeBefore φ ψ) a E = .ok (a, E)) ∧
    (∀ (dict : List (Formula × Formula)) (E : List Effect) (φ ψ m : Formula),
      findVal dict (.sometimeAfter φ ψ) = some m →
      IsBoolForm φ → Untouched a φ → simplify φ = φ →
      IsBoolForm ψ → Untouched a ψ → simplify ψ = ψ →
      processConstraint dict (.sometimeAfter φ ψ) a E = .ok (a, E)) := by
  have main := regress_untouched a hwf
  refine ⟨main, ?_, ?_, ?_, ?_, ?_⟩
  · intro dict E φ hb hu hfix
    rcases main φ hb hu with ⟨ρ, hρ, hs⟩
    have hR : simplify ρ = φ := hs.trans hfix
    simp only [processConstraint, manageAlwaysCompilation, hρ]
    rw [if_pos hR]
    rfl
  · intro dict E φ m hdict hb hu hfix
    rcases main φ hb hu with ⟨ρ, hρ, hs⟩
    have hR : simplify ρ = φ := hs.trans hfix
    simp only [processConstraint, hdict, manageSometimeCompilation, hρ]
    rw [if_pos hR]
  · intro dict E φ m hdict hb hu hfix
    rcases main φ hb hu with ⟨ρ, hρ, hs⟩
    have hR : simplify ρ = φ := hs.trans hfix
    simp only [processConstraint, hdict, manageAmoCompilation, hρ]
    rw [if_pos hR]
    rfl
  · intro dict E φ ψ m hdict hbφ huφ hfixφ hbψ huψ hfixψ
    rcases main φ hbφ huφ with ⟨ρ1, hρ1, hs1⟩
    rcases main ψ hbψ huψ with ⟨ρ2, hρ2, hs2⟩
    have hR1 : simplify ρ1 = φ := hs1.trans hfixφ
    have hR2 : simplify ρ2 = ψ := hs2.trans hfixψ
    simp only [processConstraint, hdict, manageSbCompilation, hρ1, hρ2]
    rw [if_pos hR1, if_pos hR2]
    rfl
  · intro dict E φ ψ m hdict hbφ huφ hfixφ hbψ huψ hfixψ
    rcases main φ hbφ huφ with ⟨ρ1, hρ1, hs1⟩
    rcases main ψ hbψ huψ with ⟨ρ2, hρ2, hs2⟩
    have hR1 : simplify ρ1 = φ := hs1.trans hfixφ
    have hR2 : simplify ρ2 = ψ := hs2.trans hfixψ
    simp only [processConstraint, hdict, manageSaCompilation, hρ1, hρ2]
    have hcond : φ = simplify ρ1 ∧ ψ = simplify ρ2 := ⟨hR1.symm, hR2.symm⟩
    rw [if_pos hcond, if_pos hR2.symm]

/-- C6 witness: the action writing only r leaves the sometime p
constraint rewriting inert. -/
theorem c6_witness :
    processConstraint [(Formula.sometime pAtom, m5)] (.sometime pAtom) actW [] =
      .ok (actW, []) :=
  (c6_regression_fixed_point actW (by decide)).2.2.1 [(Formula.sometime pAtom, m5)]
    [] pAtom m5 (by decide) (IsBoolForm.atom "p") (by decide) (by decide)

end TCR
